import Mathlib

/-!
Shallow embedding of `dragonmapper/hanzi.py`: identification and
transliteration functions for Chinese characters.

Strings are modelled as `List Char`.  The external collaborators (the
CC-CEDICT character-set tables, the word/character reading lexicons loaded
from the data files, the `zhon` character classes, and the three external
transcription converters) are collected in an `Env` structure; every
function of the module is parameterised by such an environment.
-/

namespace Dragonmapper

/-- Strings of the embedded program are lists of characters. -/
abbrev Str := List Char

/-- Identity constant `UNKNOWN = 0`. -/
def UNKNOWN : Nat := 0

/-- Identity constant `TRADITIONAL = 1`. -/
def TRADITIONAL : Nat := 1

/-- Identity constant `SIMPLIFIED = 2`. -/
def SIMPLIFIED : Nat := 2

/-- Identity constant `BOTH = 3`. -/
def BOTH : Nat := 3

/-- Identity constant `MIXED = 4`. -/
def MIXED : Nat := 4

/-- The static data the module loads at import time, plus the external
converter functions.  `traditional` and `simplified` embed
`_TRADITIONAL_CHARACTERS` and `_SIMPLIFIED_CHARACTERS`; `allChars` is the
membership test of the `zhon.cedict.all` character class; `words` and
`characters` embed `_WORDS` and `_CHARACTERS` (readings are already split
at the reading separator, so a lookup yields a list of readings);
`punctuation` is the `zhon.hanzi.punctuation` class, `vowels` and
`lowercase` the `zhon.pinyin` classes; the last three fields are the pure
external converters imported from `dragonmapper.transcriptions`. -/
structure Env where
  traditional : Finset Char
  simplified : Finset Char
  allChars : Char → Bool
  words : Str → Option (List Str)
  characters : Char → Option (List Str)
  punctuation : Char → Bool
  vowels : Char → Bool
  lowercase : Char → Bool
  accentedToNumbered : Str → Str
  pinyinToZhuyin : Str → Str
  pinyinToIpa : Str → Str

/-- `_SHARED_CHARACTERS = _TRADITIONAL_CHARACTERS ∩ _SIMPLIFIED_CHARACTERS`. -/
def Env.shared (env : Env) : Finset Char := env.traditional ∩ env.simplified

/-- `_get_hanzi`: the set of a string's characters that belong to the
combined Chinese character class. -/
def getHanzi (env : Env) (s : Str) : Finset Char :=
  (s.filter env.allChars).toFinset

/-- `identify`: classify a string's Chinese characters. -/
def identify (env : Env) (s : Str) : Nat :=
  let chinese := getHanzi env s
  if chinese = ∅ then UNKNOWN
  else if chinese ⊆ env.shared then BOTH
  else if chinese ⊆ env.traditional then TRADITIONAL
  else if chinese ⊆ env.simplified then SIMPLIFIED
  else MIXED

/-- `has_chinese`: whether the extracted Chinese-character set is non-empty. -/
def hasChinese (env : Env) (s : Str) : Bool :=
  getHanzi env s ≠ ∅

/-- `is_traditional`: `identify(s) in (TRADITIONAL, BOTH)`. -/
def isTraditional (env : Env) (s : Str) : Bool :=
  identify env s = TRADITIONAL ∨ identify env s = BOTH

/-- `is_simplified`: `identify(s) in (SIMPLIFIED, BOTH)`. -/
def isSimplified (env : Env) (s : Str) : Bool :=
  identify env s = SIMPLIFIED ∨ identify env s = BOTH

/-- One element of the character-level resolution result of
`_hanzi_to_pinyin`: either the untouched original character
(unrecognized), or the character's ordered list of readings. -/
inductive CharRes where
  | literal (c : Char)
  | readings (rs : List Str)
deriving DecidableEq

/-- `_CHARACTERS.get(character, character)`: one character's lookup. -/
def charLookup (env : Env) (c : Char) : CharRes :=
  match env.characters c with
  | some rs => CharRes.readings rs
  | none => CharRes.literal c

/-- `_hanzi_to_pinyin`: word-level lookup first; on a miss, per-character
lookup of every character of the span. -/
def hanziToPinyin (env : Env) (hanzi : Str) : Sum (List Str) (List CharRes) :=
  match env.words hanzi with
  | some rs => Sum.inl rs
  | none => Sum.inr (hanzi.map (charLookup env))

/-- `'[%s]' % '/'.join(readings)`: alternates joined by the reading
separator and wrapped in square brackets. -/
def bracket (rs : List Str) : Str :=
  '[' :: (List.intercalate ['/'] rs) ++ [']']

/-- The body of the per-character emission loop of `to_pinyin`:
unrecognized characters pass through; recognized characters emit the
bracketed alternates in all-readings mode, or the first reading — with the
apostrophe syllable-separation rule — in best-reading mode. -/
def emitChar (env : Env) (allReadings : Bool) (acc : Str) (cr : CharRes) : Str :=
  match cr with
  | CharRes.literal c => acc ++ [c]
  | CharRes.readings rs =>
    if allReadings then acc ++ bracket rs
    else
      let r := rs.headD []
      let ap : Bool :=
        match acc.getLast?, r.head? with
        | some lc, some fc => env.vowels fc && env.lowercase lc
        | _, _ => false
      acc ++ (if ap then ['\''] else []) ++ r

/-- Resolution of one matched run in `to_pinyin`: the word branch
(`match.group() in _WORDS`) emits the word reading(s); otherwise each
character of the run is emitted individually by `emitChar`. -/
def resolveUnit (env : Env) (allReadings : Bool) (acc run : Str) : Str :=
  match hanziToPinyin env run with
  | Sum.inl rs => if allReadings then acc ++ bracket rs else acc ++ rs.headD []
  | Sum.inr crs => crs.foldl (emitChar env allReadings) acc

/-- Membership in the excluded character class of the segmentation regex
`[^DELIMITER PUNCTUATION]+`: a character of the caller-supplied delimiter
string, or a Chinese punctuation character. -/
def isExcluded (env : Env) (delim : Str) (c : Char) : Bool :=
  delim.contains c || env.punctuation c

/-- `re.search('[^%s%s]+' % (delimiter, punctuation), hanzi)`: the leftmost
maximal run of non-excluded characters.  Returns `none` when no character
matches, else `(prefix, run, rest)` where `prefix` is the excluded text
before the match, `run` the (non-empty) match and `rest` the remainder. -/
def findRun (excl : Char → Bool) (l : Str) : Option (Str × Str × Str) :=
  let pre := l.takeWhile excl
  match l.dropWhile excl with
  | [] => none
  | c :: cs =>
    some (pre, (c :: cs).takeWhile (fun d => !excl d),
      (c :: cs).dropWhile (fun d => !excl d))

/-- The `while hanzi:` loop of `to_pinyin`, with an explicit iteration
budget.  Each iteration consumes at least one character of the remaining
input (the matched run is non-empty), so a budget equal to the input
length always suffices; `loopFuel_eq_toPinyinLoop` below proves the budget
irrelevant beyond that bound. -/
def loopFuel (env : Env) (delim : Str) (allReadings : Bool) :
    Nat → Str → Str → Str
  | 0, acc, hanzi => acc ++ hanzi
  | fuel + 1, acc, hanzi =>
    match findRun (isExcluded env delim) hanzi with
    | none => acc ++ hanzi
    | some (pre, run, rest) =>
      loopFuel env delim allReadings fuel
        (resolveUnit env allReadings (acc ++ pre) run) rest

/-- The segmentation loop of `to_pinyin`, started on accumulated output
`acc` and remaining input `hanzi`. -/
def toPinyinLoop (env : Env) (delim : Str) (allReadings : Bool)
    (acc hanzi : Str) : Str :=
  loopFuel env delim allReadings hanzi.length acc hanzi

/-- `to_pinyin`: run the segmentation loop on the whole input, then return
the accented string, or its image under the external accented-to-numbered
converter. -/
def toPinyin (env : Env) (s delim : Str) (allReadings accented : Bool) : Str :=
  let pinyin := toPinyinLoop env delim allReadings [] s
  if accented then pinyin else env.accentedToNumbered pinyin

/-- `to_zhuyin`: numbered Pinyin handed to the external converter. -/
def toZhuyin (env : Env) (s delim : Str) (allReadings : Bool) : Str :=
  env.pinyinToZhuyin (toPinyin env s delim allReadings false)

/-- `to_ipa`: numbered Pinyin handed to the external converter. -/
def toIpa (env : Env) (s delim : Str) (allReadings : Bool) : Str :=
  env.pinyinToIpa (toPinyin env s delim allReadings false)

/-- A small concrete environment used to evaluate the definitions on
concrete inputs: a two-character word 你好 with canonical reading "nihao",
character readings that concatenate to something different ("nixhao"), the
pair 西/安 whose character readings assemble to "xi'an", and a
two-reading character and word for the all-readings mode. -/
def envA : Env where
  traditional := {'你', '好'}
  simplified := {'你', '好'}
  allChars := fun c => ['你', '好', '西', '安'].contains c
  words := fun w =>
    if w = ['你', '好'] then some [['n', 'i', 'h', 'a', 'o']]
    else if w = ['安', '安'] then some [['a', 'n'], ['a', 'n', '1']]
    else none
  characters := fun c =>
    if c = '你' then some [['n', 'i', 'x']]
    else if c = '好' then some [['h', 'a', 'o']]
    else if c = '西' then some [['x', 'i']]
    else if c = '安' then some [['a', 'n'], ['a', 'n', '1']]
    else none
  punctuation := fun c => c = '。'
  vowels := fun c => ['a', 'e', 'i', 'o', 'u'].contains c
  lowercase := fun c => decide ('a' ≤ c ∧ c ≤ 'z')
  accentedToNumbered := fun s => s
  pinyinToZhuyin := fun s => s
  pinyinToIpa := fun s => s

/-- A concrete environment with empty tables: no character belongs to the
combined Chinese class and both lexicons are empty. -/
def envB : Env where
  traditional := ∅
  simplified := ∅
  allChars := fun _ => false
  words := fun _ => none
  characters := fun _ => none
  punctuation := fun _ => false
  vowels := fun _ => false
  lowercase := fun _ => false
  accentedToNumbered := fun s => s
  pinyinToZhuyin := fun s => s
  pinyinToIpa := fun s => s

/-! ### Infrastructure lemmas -/

/-- The head of a non-empty `dropWhile` result fails the predicate. -/
lemma dropWhile_head_false {p : Char → Bool} :
    ∀ {l : Str} {c : Char} {cs : Str}, l.dropWhile p = c :: cs → p c = false := by
  intro l
  induction l with
  | nil => intro c cs h; simp at h
  | cons a t ih =>
    intro c cs h
    rw [List.dropWhile_cons] at h
    by_cases ha : p a
    · simp [ha] at h; exact ih h
    · simp [ha] at h
      rcases h with ⟨h1, _⟩
      simp [← h1, ha]

/-- `findRun` on the empty string finds nothing. -/
lemma findRun_nil (excl : Char → Bool) : findRun excl [] = none := rfl

/-- `findRun` finds nothing exactly when every character is excluded. -/
lemma findRun_eq_none_iff (excl : Char → Bool) (l : Str) :
    findRun excl l = none ↔ ∀ c ∈ l, excl c = true := by
  unfold findRun
  constructor
  · intro h c hc
    rcases hd : l.dropWhile excl with _ | ⟨a, t⟩
    · have := List.dropWhile_eq_nil_iff.mp hd c hc
      simpa using this
    · simp [hd] at h
  · intro h
    have hd : l.dropWhile excl = [] := List.dropWhile_eq_nil_iff.mpr h
    simp [hd]

/-- Full specification of a successful `findRun`: the prefix is the
excluded text before the match, the run is non-empty and consists of
non-excluded characters, the three pieces reassemble the input, and the
rest is strictly shorter than the input. -/
lemma findRun_some_spec {excl : Char → Bool} {l pre run rest : Str}
    (h : findRun excl l = some (pre, run, rest)) :
    pre = l.takeWhile excl ∧ run ≠ [] ∧ l = pre ++ run ++ rest ∧
      rest.length < l.length ∧ (∀ c ∈ pre, excl c = true) ∧
      (∀ c ∈ run, excl c = false) := by
  unfold findRun at h
  rcases hd : l.dropWhile excl with _ | ⟨a, t⟩
  · simp [hd] at h
  · simp [hd] at h
    rcases h with ⟨hpre, hrun, hrest⟩
    have ha : excl a = false := dropWhile_head_false hd
    have hsplit : l.takeWhile excl ++ (a :: t) = l := by
      rw [← hd]; exact List.takeWhile_append_dropWhile excl l
    have hrunrest : run ++ rest = a :: t := by
      rw [← hrun, ← hrest]
      exact List.takeWhile_append_dropWhile (fun d => !excl d) (a :: t)
    have hrun_ne : run ≠ [] := by
      rw [← hrun]
      simp [List.takeWhile_cons, ha]
    have hl : l = pre ++ run ++ rest := by
      rw [← hpre, List.append_assoc, hrunrest, hsplit]
    refine ⟨hpre.symm, hrun_ne, hl, ?_, ?_, ?_⟩
    · rw [hl]
      rcases run with _ | ⟨r0, rt⟩
      · exact absurd rfl hrun_ne
      · simp [List.length_append]; omega
    · intro c hc
      rw [← hpre] at hc
      exact List.mem_takeWhile_imp hc
    · intro c hc
      rw [← hrun] at hc
      have := List.mem_takeWhile_imp hc
      simpa using this

/-- If every character of the input is excluded, the fueled loop copies
the input verbatim (the `match is None` break of `to_pinyin`). -/
lemma loopFuel_of_none {env : Env} {delim : Str} {allReadings : Bool}
    {hanzi : Str} (h : findRun (isExcluded env delim) hanzi = none) :
    ∀ (fuel : Nat) (acc : Str),
      loopFuel env delim allReadings fuel acc hanzi = acc ++ hanzi := by
  intro fuel acc
  cases fuel with
  | zero => rfl
  | succ f => simp [loopFuel, h]

/-- The iteration budget is irrelevant as soon as it reaches the length of
the remaining input: the loop always halts within one pass. -/
lemma loopFuel_eq_toPinyinLoop (env : Env) (delim : Str) (allReadings : Bool) :
    ∀ (fuel : Nat) (hanzi : Str), hanzi.length ≤ fuel → ∀ acc : Str,
      loopFuel env delim allReadings fuel acc hanzi =
        toPinyinLoop env delim allReadings acc hanzi := by
  intro fuel
  induction fuel using Nat.strong_induction_on with
  | _ fuel ih =>
    intro hanzi hlen acc
    cases fuel with
    | zero =>
      have : hanzi = [] := List.length_eq_zero.mp (Nat.le_zero.mp hlen)
      subst this
      rfl
    | succ f =>
      rcases hfr : findRun (isExcluded env delim) hanzi with _ | ⟨pre, run, rest⟩
      · rw [loopFuel_of_none hfr, toPinyinLoop, loopFuel_of_none hfr]
      · obtain ⟨-, -, -, hlt, -, -⟩ := findRun_some_spec hfr
        have hstep :
            loopFuel env delim allReadings (f + 1) acc hanzi =
              loopFuel env delim allReadings f
                (resolveUnit env allReadings (acc ++ pre) run) rest := by
          simp [loopFuel, hfr]
        rw [hstep]
        rw [ih f (Nat.lt_succ_self f) rest (by omega) _]
        rcases hn : hanzi.length with _ | m
        · omega
        · have hstep2 :
              toPinyinLoop env delim allReadings acc hanzi =
                loopFuel env delim allReadings m
                  (resolveUnit env allReadings (acc ++ pre) run) rest := by
            rw [toPinyinLoop, hn]
            simp [loopFuel, hfr]
          rw [hstep2, ih m (by omega) rest (by omega) _]

/-- When no run is found, the segmentation loop appends the remaining
input verbatim and stops. -/
lemma toPinyinLoop_of_none {env : Env} {delim : Str} {allReadings : Bool}
    {hanzi : Str} (h : findRun (isExcluded env delim) hanzi = none)
    (acc : Str) :
    toPinyinLoop env delim allReadings acc hanzi = acc ++ hanzi :=
  loopFuel_of_none h hanzi.length acc

/-- One iteration of the segmentation loop: copy the excluded prefix
verbatim, resolve the matched run, continue on the rest. -/
lemma toPinyinLoop_step {env : Env} {delim : Str} {allReadings : Bool}
    {hanzi pre run rest : Str}
    (h : findRun (isExcluded env delim) hanzi = some (pre, run, rest))
    (acc : Str) :
    toPinyinLoop env delim allReadings acc hanzi =
      toPinyinLoop env delim allReadings
        (resolveUnit env allReadings (acc ++ pre) run) rest := by
  obtain ⟨-, -, -, hlt, -, -⟩ := findRun_some_spec h
  rcases hn : hanzi.length with _ | m
  · omega
  · rw [toPinyinLoop, hn]
    have hstep :
        loopFuel env delim allReadings (m + 1) acc hanzi =
          loopFuel env delim allReadings m
            (resolveUnit env allReadings (acc ++ pre) run) rest := by
      simp [loopFuel, h]
    rw [hstep]
    exact loopFuel_eq_toPinyinLoop env delim allReadings m rest (by omega) _

/-- The extracted Hanzi set is empty exactly when no character of the
string belongs to the combined Chinese character class. -/
lemma getHanzi_eq_empty_iff (env : Env) (s : Str) :
    getHanzi env s = ∅ ↔ ∀ c ∈ s, env.allChars c = false := by
  unfold getHanzi
  rw [List.toFinset_eq_empty_iff, List.filter_eq_nil_iff]
  constructor
  · intro h c hc
    simpa using h c hc
  · intro h c hc
    simp [h c hc]

/-- `identify` reports `UNKNOWN` exactly on an empty extracted set. -/
lemma identify_eq_unknown_iff (env : Env) (s : Str) :
    identify env s = UNKNOWN ↔ getHanzi env s = ∅ := by
  simp only [identify]
  split_ifs with h1 h2 h3 h4 <;>
    simp_all [UNKNOWN, BOTH, TRADITIONAL, SIMPLIFIED, MIXED]

/-! ### Claim theorems -/

/-- Claim C3: classification contract of `identify`.  The result is
`UNKNOWN` exactly when the string has no character of the combined
Chinese character class; `BOTH` exactly when the non-empty extracted set
lies in the shared set (the intersection of both systems); `TRADITIONAL`
exactly when it lies in the Traditional set but not entirely in the
Simplified set; symmetrically for `SIMPLIFIED`; and `MIXED` otherwise —
reflecting that the `BOTH` test is decided before the exclusive-system
tests. -/
theorem identify_classification (env : Env) (s : Str) :
    (identify env s = UNKNOWN ↔ getHanzi env s = ∅) ∧
    (identify env s = BOTH ↔ getHanzi env s ≠ ∅ ∧
      getHanzi env s ⊆ env.traditional ∧ getHanzi env s ⊆ env.simplified) ∧
    (identify env s = TRADITIONAL ↔ getHanzi env s ≠ ∅ ∧
      getHanzi env s ⊆ env.traditional ∧ ¬getHanzi env s ⊆ env.simplified) ∧
    (identify env s = SIMPLIFIED ↔ getHanzi env s ≠ ∅ ∧
      getHanzi env s ⊆ env.simplified ∧ ¬getHanzi env s ⊆ env.traditional) ∧
    (identify env s = MIXED ↔ getHanzi env s ≠ ∅ ∧
      ¬getHanzi env s ⊆ env.traditional ∧ ¬getHanzi env s ⊆ env.simplified) := by
  have hsh : getHanzi env s ⊆ env.shared ↔
      getHanzi env s ⊆ env.traditional ∧ getHanzi env s ⊆ env.simplified := by
    unfold Env.shared
    exact Finset.subset_inter_iff
  refine ⟨identify_eq_unknown_iff env s, ?_, ?_, ?_, ?_⟩ <;>
  · simp only [identify]
    split_ifs with h1 h2 h3 h4 <;>
      simp_all [UNKNOWN, BOTH, TRADITIONAL, SIMPLIFIED, MIXED]

/-- Claim C7: `has_chinese` is `true` exactly when `identify` does not
report `UNKNOWN`, i.e. exactly when the string contains at least one
character of the combined Chinese character class. -/
theorem hasChinese_iff_identify_ne_unknown (env : Env) (s : Str) :
    (hasChinese env s = true ↔ identify env s ≠ UNKNOWN) ∧
    (hasChinese env s = true ↔ ∃ c ∈ s, env.allChars c = true) := by
  have h1 : hasChinese env s = true ↔ getHanzi env s ≠ ∅ := by
    unfold hasChinese
    simp
  constructor
  · rw [h1]
    exact (not_iff_not.mpr (identify_eq_unknown_iff env s)).symm
  · rw [h1]
    rw [Ne, getHanzi_eq_empty_iff]
    push_neg
    constructor
    · rintro ⟨c, hc, h⟩
      exact ⟨c, hc, by simpa using h⟩
    · rintro ⟨c, hc, h⟩
      exact ⟨c, hc, by simp [h]⟩

/-- Emitting a run of characters none of which is in the character
lexicon copies the run verbatim. -/
lemma foldl_emitChar_of_unrecognized (env : Env) (allReadings : Bool) :
    ∀ (run : Str) (acc : Str), (∀ c ∈ run, env.characters c = none) →
      (run.map (charLookup env)).foldl (emitChar env allReadings) acc =
        acc ++ run := by
  intro run
  induction run with
  | nil => intro acc _; simp
  | cons a t ih =>
    intro acc h
    have ha : env.characters a = none := h a (by simp)
    have hstep : emitChar env allReadings acc (charLookup env a) = acc ++ [a] := by
      simp [charLookup, ha, emitChar]
    simp only [List.map_cons, List.foldl_cons, hstep]
    rw [ih (acc ++ [a]) (fun c hc => h c (by simp [hc]))]
    simp

/-- If no character of the remaining input is in the combined Chinese
class and both lexicons are keyed by Chinese characters only, the
segmentation loop copies the input verbatim. -/
lemma toPinyinLoop_passthrough (env : Env) (delim : Str) (allReadings : Bool)
    (hw : ∀ w rs, env.words w = some rs → ∀ c ∈ w, env.allChars c = true)
    (hch : ∀ c rs, env.characters c = some rs → env.allChars c = true) :
    ∀ (n : Nat) (s : Str), s.length ≤ n →
      (∀ c ∈ s, env.allChars c = false) → ∀ acc : Str,
      toPinyinLoop env delim allReadings acc s = acc ++ s := by
  intro n
  induction n with
  | zero =>
    intro s hlen _ acc
    have hs : s = [] := List.length_eq_zero.mp (Nat.le_zero.mp hlen)
    subst hs
    exact toPinyinLoop_of_none (findRun_nil _) acc
  | succ n ih =>
    intro s hlen hs acc
    rcases hfr : findRun (isExcluded env delim) s with _ | ⟨pre, run, rest⟩
    · exact toPinyinLoop_of_none hfr acc
    · obtain ⟨-, hne, hsplit, hlt, -, -⟩ := findRun_some_spec hfr
      have hrun_sub : ∀ c ∈ run, env.allChars c = false := by
        intro c hc
        apply hs
        rw [hsplit]
        simp [hc]
      have hrest_sub : ∀ c ∈ rest, env.allChars c = false := by
        intro c hc
        apply hs
        rw [hsplit]
        simp [hc]
      have hwords : env.words run = none := by
        rcases hwr : env.words run with _ | rs
        · rfl
        · rcases run with _ | ⟨r0, rt⟩
          · exact absurd rfl hne
          · have h1 := hw _ _ hwr r0 (by simp)
            have h2 := hrun_sub r0 (by simp)
            simp [h1] at h2
      have hchars : ∀ c ∈ run, env.characters c = none := by
        intro c hc
        rcases hcr : env.characters c with _ | rs
        · rfl
        · have h1 := hch _ _ hcr
          have h2 := hrun_sub c hc
          simp [h1] at h2
      rw [toPinyinLoop_step hfr]
      have hres : resolveUnit env allReadings (acc ++ pre) run =
          acc ++ pre ++ run := by
        simp [resolveUnit, hanziToPinyin, hwords,
          foldl_emitChar_of_unrecognized env allReadings run _ hchars]
      rw [hres, ih rest (by omega) hrest_sub]
      rw [hsplit]
      simp

/-- Claim C1: word-lookup precedence.  When the matched run of a
segmentation step is an exact key of the word lexicon, the loop emits the
(copied-verbatim) excluded prefix followed by the word entry itself — the
bracketed alternates in all-readings mode, the canonical first reading
otherwise — and continues on the rest; the emitted text is taken from the
word entry, never assembled from single-character readings. -/
theorem word_lookup_precedence (env : Env) (delim : Str) (allReadings : Bool)
    (acc hanzi pre run rest : Str) (rs : List Str)
    (hf : findRun (isExcluded env delim) hanzi = some (pre, run, rest))
    (hw : env.words run = some rs) (_hne : rs ≠ []) :
    toPinyinLoop env delim allReadings acc hanzi =
      toPinyinLoop env delim allReadings
        (acc ++ pre ++ (if allReadings then bracket rs else rs.headD []))
        rest := by
  rw [toPinyinLoop_step hf]
  have hres : resolveUnit env allReadings (acc ++ pre) run =
      acc ++ pre ++ (if allReadings then bracket rs else rs.headD []) := by
    simp only [resolveUnit, hanziToPinyin, hw]
    split_ifs <;> simp
  rw [hres]

/-- Claim C2: apostrophe insertion.  In best-reading mode, when a
recognized character is emitted while the accumulated output ends in a
lowercase Latin letter and the canonical reading starts with a vowel, an
apostrophe is inserted before the reading.  In all-readings mode the same
character emits its bracketed alternates with no apostrophe, and the
word-level branch emits the canonical word reading with no apostrophe. -/
theorem apostrophe_insertion (env : Env) (acc : Str) (c : Char)
    (rs : List Str) (lc fc : Char)
    (hc : env.characters c = some rs)
    (hlast : acc.getLast? = some lc) (hlow : env.lowercase lc = true)
    (hfirst : (rs.headD []).head? = some fc) (hvow : env.vowels fc = true) :
    emitChar env false acc (charLookup env c) = acc ++ '\'' :: rs.headD [] ∧
    emitChar env true acc (charLookup env c) = acc ++ bracket rs ∧
    (∀ w rs2, env.words w = some rs2 →
      resolveUnit env false acc w = acc ++ rs2.headD []) := by
  refine ⟨?_, ?_, ?_⟩
  · have hfirst2 : (rs.head?.getD []).head? = some fc := by
      simpa [List.headD_eq_head?_getD] using hfirst
    simp [emitChar, charLookup, hc, hlast, hfirst2, hvow, hlow]
  · simp [emitChar, charLookup, hc]
  · intro w rs2 hw
    simp [resolveUnit, hanziToPinyin, hw]

/-- Claim C4: pass-through identity.  A string containing no character of
the combined Chinese character class is returned unchanged by
`to_pinyin`, provided the word and character lexicons are keyed by
Chinese characters only (as the loaded CC-CEDICT data is). -/
theorem toPinyin_passthrough (env : Env) (s delim : Str) (allReadings : Bool)
    (hs : ∀ c ∈ s, env.allChars c = false)
    (hw : ∀ w rs, env.words w = some rs → ∀ c ∈ w, env.allChars c = true)
    (hch : ∀ c rs, env.characters c = some rs → env.allChars c = true) :
    toPinyin env s delim allReadings true = s := by
  have h := toPinyinLoop_passthrough env delim allReadings hw hch
    s.length s le_rfl hs []
  simpa [toPinyin] using h

/-- Claim C5: numbered output is a whole-string final pass.  For every
input, delimiter and all-readings flag, the numbered result equals the
external accented-to-numbered converter applied once to the fully
assembled accented result. -/
theorem toPinyin_numbered_final_pass (env : Env) (s delim : Str)
    (allReadings : Bool) :
    toPinyin env s delim allReadings false =
      env.accentedToNumbered (toPinyin env s delim allReadings true) := by
  simp [toPinyin]

/-- Claim C6: bridge composition.  `to_zhuyin` and `to_ipa` return the
external converter's result, unchanged, applied to the numbered Pinyin
rendering of the input with the same delimiter and all-readings flag. -/
theorem bridge_composition (env : Env) (s delim : Str) (allReadings : Bool) :
    toZhuyin env s delim allReadings =
      env.pinyinToZhuyin (toPinyin env s delim allReadings false) ∧
    toIpa env s delim allReadings =
      env.pinyinToIpa (toPinyin env s delim allReadings false) :=
  ⟨rfl, rfl⟩

/-- Claim C8: all-readings bracketing.  In all-readings mode a resolution
unit with reading sequence `[a, b]` — a word-lexicon headword or a
recognized single character — emits exactly the alternates joined by `/`
and wrapped in square brackets, in lexicon order. -/
theorem all_readings_bracketing (env : Env) (acc : Str) :
    (∀ run a b, env.words run = some [a, b] →
      resolveUnit env true acc run = acc ++ '[' :: a ++ '/' :: b ++ [']']) ∧
    (∀ c a b, env.characters c = some [a, b] →
      emitChar env true acc (charLookup env c) =
        acc ++ '[' :: a ++ '/' :: b ++ [']']) := by
  have hbr : ∀ a b : Str, bracket [a, b] = '[' :: a ++ '/' :: b ++ [']'] := by
    intro a b
    simp [bracket, List.intercalate]
  constructor
  · intro run a b hw
    simp [resolveUnit, hanziToPinyin, hw, hbr]
  · intro c a b hc
    simp [emitChar, charLookup, hc, hbr]

/-- Claim C9: termination by strict progress.  A successful segmentation
step splits the remaining input into an excluded prefix, a non-empty run
and a strictly shorter rest, and one loop iteration is exactly that step;
when no run is found the loop appends the remaining suffix and stops.
The loop is therefore a single bounded pass over the input. -/
theorem segmentation_progress (env : Env) (delim : Str) (allReadings : Bool)
    (acc hanzi pre run rest : Str)
    (h : findRun (isExcluded env delim) hanzi = some (pre, run, rest)) :
    run ≠ [] ∧ hanzi = pre ++ run ++ rest ∧ rest.length < hanzi.length ∧
    toPinyinLoop env delim allReadings acc hanzi =
      toPinyinLoop env delim allReadings
        (resolveUnit env allReadings (acc ++ pre) run) rest ∧
    (∀ l : Str, findRun (isExcluded env delim) l = none →
      toPinyinLoop env delim allReadings acc l = acc ++ l) := by
  obtain ⟨-, hne, hsplit, hlt, -, -⟩ := findRun_some_spec h
  exact ⟨hne, hsplit, hlt, toPinyinLoop_step h acc,
    fun l hl => toPinyinLoop_of_none hl acc⟩

/-- Claim C10: delimiter and punctuation characters are never resolved.
Every matched run excludes them (its characters fail `isExcluded`, the
skipped prefix consists of excluded characters only), and a string made
entirely of delimiter or punctuation characters — for example a delimiter
that is itself a Hanzi character with lexicon entries — is copied to the
output unchanged. -/
theorem delimiter_punctuation_verbatim (env : Env) (delim : Str)
    (allReadings : Bool) (s : Str) :
    (∀ pre run rest, findRun (isExcluded env delim) s = some (pre, run, rest) →
      (∀ c ∈ pre, isExcluded env delim c = true) ∧
      (∀ c ∈ run, isExcluded env delim c = false)) ∧
    ((∀ c ∈ s, isExcluded env delim c = true) →
      toPinyin env s delim allReadings true = s) := by
  constructor
  · intro pre run rest h
    obtain ⟨-, -, -, -, h5, h6⟩ := findRun_some_spec h
    exact ⟨h5, h6⟩
  · intro h
    have hn : findRun (isExcluded env delim) s = none :=
      (findRun_eq_none_iff _ s).mpr h
    simp [toPinyin, toPinyinLoop_of_none hn]

/-- Witness for C1: in `envA` the span 你好 is a word-lexicon key with
canonical reading "nihao"; the loop emits that reading (its character
readings would concatenate to "nixhao"). -/
theorem word_lookup_precedence_witness :
    findRun (isExcluded envA [' ']) ['你', '好'] = some ([], ['你', '好'], []) ∧
    envA.words ['你', '好'] = some [['n', 'i', 'h', 'a', 'o']] ∧
    ([['n', 'i', 'h', 'a', 'o']] : List Str) ≠ [] ∧
    toPinyinLoop envA [' '] false [] ['你', '好'] =
      toPinyinLoop envA [' '] false ['n', 'i', 'h', 'a', 'o'] [] :=
  ⟨by decide, by decide, by decide,
   by simpa using word_lookup_precedence envA [' '] false [] ['你', '好'] []
       ['你', '好'] [] [['n', 'i', 'h', 'a', 'o']] (by decide) (by decide)
       (by decide)⟩

/-- Witness for C2: with accumulated output "xi" and the character 安
reading "an", best-reading emission inserts the apostrophe, and the full
conversion of 西安 yields "xi'an". -/
theorem apostrophe_insertion_witness :
    envA.characters '安' = some [['a', 'n'], ['a', 'n', '1']] ∧
    (['x', 'i'] : Str).getLast? = some 'i' ∧
    envA.lowercase 'i' = true ∧
    (([['a', 'n'], ['a', 'n', '1']] : List Str).headD []).head? = some 'a' ∧
    envA.vowels 'a' = true ∧
    emitChar envA false ['x', 'i'] (charLookup envA '安') =
      ['x', 'i', '\'', 'a', 'n'] ∧
    toPinyin envA ['西', '安'] [' '] false true = ['x', 'i', '\'', 'a', 'n'] :=
  ⟨by decide, by decide, by decide, by decide, by decide,
   by simpa using (apostrophe_insertion envA ['x', 'i'] '安'
       [['a', 'n'], ['a', 'n', '1']] 'i' 'a' (by decide) (by decide)
       (by decide) (by decide) (by decide)).1,
   by decide⟩

/-- Witness for C4: `envB` has Chinese-keyed (here empty) lexicons, no
character of "hello!" is Chinese, and `to_pinyin` returns "hello!" and
the empty string unchanged. -/
theorem toPinyin_passthrough_witness :
    (∀ c ∈ (['h', 'e', 'l', 'l', 'o', '!'] : Str), envB.allChars c = false) ∧
    (∀ w rs, envB.words w = some rs → ∀ c ∈ w, envB.allChars c = true) ∧
    (∀ c rs, envB.characters c = some rs → envB.allChars c = true) ∧
    toPinyin envB ['h', 'e', 'l', 'l', 'o', '!'] [' '] false true =
      ['h', 'e', 'l', 'l', 'o', '!'] ∧
    toPinyin envB [] [' '] false true = [] :=
  ⟨by decide,
   by intro w rs h; simp [envB] at h,
   by intro c rs h; simp [envB] at h,
   toPinyin_passthrough envB ['h', 'e', 'l', 'l', 'o', '!'] [' '] false
     (by decide) (by intro w rs h; simp [envB] at h)
     (by intro c rs h; simp [envB] at h),
   by decide⟩

/-- Witness for C8: the word 安安 and the character 安 both carry the
readings `["an", "an1"]`; in all-readings mode both emit `"[an/an1]"`. -/
theorem all_readings_bracketing_witness :
    envA.words ['安', '安'] = some [['a', 'n'], ['a', 'n', '1']] ∧
    envA.characters '安' = some [['a', 'n'], ['a', 'n', '1']] ∧
    resolveUnit envA true [] ['安', '安'] =
      '[' :: ['a', 'n'] ++ '/' :: ['a', 'n', '1'] ++ [']'] ∧
    emitChar envA true [] (charLookup envA '安') =
      '[' :: ['a', 'n'] ++ '/' :: ['a', 'n', '1'] ++ [']'] :=
  ⟨by decide, by decide,
   by simpa using (all_readings_bracketing envA []).1 ['安', '安'] ['a', 'n']
       ['a', 'n', '1'] (by decide),
   by simpa using (all_readings_bracketing envA []).2 '安' ['a', 'n']
       ['a', 'n', '1'] (by decide)⟩

/-- Witness for C9: on "。你好" the segmentation step skips the
punctuation mark, matches the non-empty run 你好 and leaves a strictly
shorter rest. -/
theorem segmentation_progress_witness :
    findRun (isExcluded envA [' ']) ['。', '你', '好'] =
      some (['。'], ['你', '好'], []) ∧
    ((['你', '好'] : Str) ≠ [] ∧
    (['。', '你', '好'] : Str) = ['。'] ++ ['你', '好'] ++ [] ∧
    ([] : Str).length < (['。', '你', '好'] : Str).length ∧
    toPinyinLoop envA [' '] false [] ['。', '你', '好'] =
      toPinyinLoop envA [' '] false
        (resolveUnit envA false ([] ++ ['。']) ['你', '好']) [] ∧
    (∀ l : Str, findRun (isExcluded envA [' ']) l = none →
      toPinyinLoop envA [' '] false [] l = [] ++ l)) :=
  ⟨by decide,
   segmentation_progress envA [' '] false [] ['。', '你', '好'] ['。']
     ['你', '好'] [] (by decide)⟩

/-- Witness for C10: with the Hanzi character 好 — which has lexicon
entries in `envA` — as the delimiter, the string 好好 consists only of
excluded characters and is returned unchanged, not converted. -/
theorem delimiter_punctuation_verbatim_witness :
    (∀ c ∈ (['好', '好'] : Str), isExcluded envA ['好'] c = true) ∧
    envA.characters '好' = some [['h', 'a', 'o']] ∧
    toPinyin envA ['好', '好'] ['好'] false true = ['好', '好'] :=
  ⟨by decide, by decide,
   (delimiter_punctuation_verbatim envA ['好'] false ['好', '好']).2
     (by decide)⟩

end Dragonmapper
